import Mathlib

/-!
Verification of the VCF line rewriter (`src/scripts/rust_approach.rs`).

The program reads a tab-delimited variant file line by line.  Lines whose
first character is `#` are copied verbatim; every other line is split with
`splitn(6, '\t')` into chromosome, position, an old identifier (discarded),
reference allele, alternate allele and a remainder, and is rewritten with
the identifier replaced by `chrom:pos:ref:alt`.  Command-line arguments are
scanned manually for `-i`/`--input` and `-o`/`--output`; both `expect`
calls use the message "Specify input VCF with --input".

Lines are modelled as `List Char` with the terminating newline stripped,
matching Rust's `BufRead::lines` / `writeln!` pairing.
-/

namespace VCF

/-- A string, modelled as its list of characters. -/
abbrev Str := List Char

/-- The tab delimiter. -/
def tab : Char := '\t'

/-- One step of Rust's `splitn(_, '\t')`: split a line at its first tab,
returning the (tab-free) part before it and the part after it, or `none`
when the line contains no tab. -/
def splitFirst : Str → Option (Str × Str)
  | [] => none
  | c :: cs =>
    if c = tab then some ([], cs)
    else
      match splitFirst cs with
      | none => none
      | some (pre, post) => some (c :: pre, post)

/-- Model of Rust's `line.splitn(n, '\t')`: at most `n` parts, the last
part keeping any remaining tabs unsplit. -/
def splitN : Nat → Str → List Str
  | 0, _ => []
  | 1, l => [l]
  | n + 2, l =>
    match splitFirst l with
    | none => [l]
    | some (pre, post) => pre :: splitN (n + 1) post

/-- Full split on tabs; `splitAll l` lists the tab-delimited fields of `l`
(the numbering the spec uses).  It always has `l.count tab + 1` entries. -/
def splitAll (l : Str) : List Str :=
  l.foldr
    (fun c acc =>
      if c = tab then [] :: acc
      else
        match acc with
        | [] => [[c]]
        | g :: gs => (c :: g) :: gs)
    [[]]

/-- Number of tab-delimited fields of a line. -/
def countFields (l : Str) : Nat := (splitAll l).length

/-- The synthesized identifier `format!("{chrom}:{pos}:{ref_allele}:{alt_allele}")`. -/
def mkId (chrom pos refA altA : Str) : Str :=
  chrom ++ ':' :: (pos ++ ':' :: (refA ++ ':' :: altA))

/-- The rewritten data line
`format!("{chrom}\t{pos}\t{id}\t{ref_allele}\t{alt_allele}\t{remainder}")`
(terminating newline left implicit). -/
def dataOutLine (chrom pos refA altA rem : Str) : Str :=
  chrom ++ tab :: (pos ++ tab :: (mkId chrom pos refA altA ++ tab ::
    (refA ++ tab :: (altA ++ tab :: rem))))

/-- Join a list of fields and a final remainder with single tabs; the shape
of a line split at its first few tabs. -/
def joinTabs : List Str → Str → Str
  | [], rem => rem
  | f :: fs, rem => f ++ tab :: joinTabs fs rem

/-- Rust `line.starts_with('#')`. -/
def isHeader : Str → Bool
  | [] => false
  | c :: _ => c = '#'

/-- Processing of one non-header line: `splitn(6, '\t')` followed by five
`.next().unwrap()` calls and one for the remainder.  `none` models the
`unwrap` panic when the line has fewer than six parts. -/
def processDataLine (line : Str) : Option Str :=
  match splitN 6 line with
  | chrom :: pos :: _ :: refA :: altA :: rem :: _ =>
    some (dataOutLine chrom pos refA altA rem)
  | _ => none

/-- Processing of one line: headers pass through verbatim, other lines are
rewritten (or panic). -/
def processLine (line : Str) : Option Str :=
  if isHeader line then some line else processDataLine line

/-- The main loop over all input lines.  Returns the list of output lines
written before any panic, and whether a panic occurred (in which case the
offending line and all later lines are not processed). -/
def processAll : List Str → List Str × Bool
  | [] => ([], false)
  | l :: ls =>
    match processLine l with
    | none => ([], true)
    | some out =>
      let r := processAll ls
      (out :: r.1, r.2)

/-- The literal "-i". -/
def iShort : Str := ['-', 'i']

/-- The literal "--input". -/
def iLong : Str := ['-', '-', 'i', 'n', 'p', 'u', 't']

/-- The literal "-o". -/
def oShort : Str := ['-', 'o']

/-- The literal "--output". -/
def oLong : Str := ['-', '-', 'o', 'u', 't', 'p', 'u', 't']

/-- Index of the first occurrence of `a`, Rust's
`args.iter().position(|a| a == arg)` (searching the whole vector,
program name included). -/
def firstIdxFrom : List Str → Str → Option Nat
  | [], _ => none
  | b :: bs, a => if b = a then some 0 else (firstIdxFrom bs a).map (· + 1)

/-- `args.get(index + 1)` after `position`: the argument following the
first occurrence of `a` in `args`, if any. -/
def valAfter (args : List Str) (a : Str) : Option Str :=
  match firstIdxFrom args a with
  | some i => args[i + 1]?
  | none => none

/-- One iteration of the Rust argument-scanning loop: `match arg.as_str()`
with the two flag arms assigning from `valAfter`, everything else ignored. -/
def flagStep (args : List Str) (st : Option Str × Option Str) (arg : Str) :
    Option Str × Option Str :=
  if arg = iShort ∨ arg = iLong then
    match valAfter args arg with
    | some file => (some file, st.2)
    | none => st
  else if arg = oShort ∨ arg = oLong then
    match valAfter args arg with
    | some file => (st.1, some file)
    | none => st
  else st

/-- The whole argument scan: fold the loop body over `args.iter().skip(1)`,
starting from `(None, None)`. -/
def parseArgs (args : List Str) : Option Str × Option Str :=
  (args.drop 1).foldl (flagStep args) (none, none)

/-- An argument is one of the four recognized flag spellings. -/
def isFlag (a : Str) : Prop :=
  a = iShort ∨ a = iLong ∨ a = oShort ∨ a = oLong

instance (a : Str) : Decidable (isFlag a) :=
  inferInstanceAs (Decidable (a = iShort ∨ a = iLong ∨ a = oShort ∨ a = oLong))

/-- The panic message of both `expect` calls:
"Specify input VCF with --input". -/
def expectMsg : Str :=
  ['S', 'p', 'e', 'c', 'i', 'f', 'y', ' ', 'i', 'n', 'p', 'u', 't', ' ',
   'V', 'C', 'F', ' ', 'w', 'i', 't', 'h', ' ', '-', '-', 'i', 'n', 'p', 'u', 't']

/-- Observable outcome of a run.  `argPanic` is an `expect` panic raised
before any file is opened or created; `ran` means both paths were parsed,
the output file was created, `written` lines were emitted, and `panicked`
records whether an `unwrap` panic cut the run short. -/
inductive Outcome where
  | argPanic (msg : Str)
  | ran (written : List Str) (panicked : Bool)
deriving DecidableEq

/-- The whole program on an argument vector and a file system (mapping a
path to the list of lines of the file at that path).  `vcf_in` is
`expect`ed before `vcf_out`, and both before any file operation. -/
def run (args : List Str) (inputOf : Str → List Str) : Outcome :=
  match parseArgs args with
  | (none, _) => .argPanic expectMsg
  | (some _, none) => .argPanic expectMsg
  | (some vin, some _) =>
    let r := processAll (inputOf vin)
    .ran r.1 r.2

/-! ### Properties of the splitters -/

theorem splitFirst_eq_none {l : Str} (h : splitFirst l = none) : tab ∉ l := by
  induction l with
  | nil => simp
  | cons c cs ih =>
    unfold splitFirst at h
    split at h
    · exact absurd h (by simp)
    · rename_i hc
      cases hcs : splitFirst cs with
      | none =>
        intro hm
        rcases List.mem_cons.mp hm with h1 | h1
        · exact hc h1.symm
        · exact ih hcs h1
      | some pr =>
        rw [hcs] at h
        exact absurd h (by simp)

theorem splitFirst_eq_some : ∀ {l pre post : Str}, splitFirst l = some (pre, post) →
    l = pre ++ tab :: post ∧ tab ∉ pre := by
  intro l
  induction l with
  | nil => intro pre post h; exact absurd h (by simp [splitFirst])
  | cons c cs ih =>
    intro pre post h
    unfold splitFirst at h
    split at h
    · rename_i hc
      rw [Option.some.injEq, Prod.mk.injEq] at h
      obtain ⟨h1, h2⟩ := h
      subst h1; subst h2; subst hc
      exact ⟨rfl, by simp⟩
    · rename_i hc
      cases hcs : splitFirst cs with
      | none => rw [hcs] at h; exact absurd h (by simp)
      | some pr =>
        obtain ⟨p, q⟩ := pr
        rw [hcs] at h
        rw [Option.some.injEq, Prod.mk.injEq] at h
        obtain ⟨h1, h2⟩ := h
        subst h1; subst h2
        obtain ⟨hdec, hmem⟩ := ih hcs
        constructor
        · rw [List.cons_append, ← hdec]
        · intro hm
          rcases List.mem_cons.mp hm with h1 | h1
          · exact hc h1.symm
          · exact hmem h1

theorem splitFirst_append {pre : Str} (hpre : tab ∉ pre) (post : Str) :
    splitFirst (pre ++ tab :: post) = some (pre, post) := by
  induction pre with
  | nil => simp [splitFirst]
  | cons c cs ih =>
    have hc : ¬(c = tab) := fun h => hpre (h ▸ List.mem_cons_self c cs)
    have hcs : tab ∉ cs := fun h => hpre (List.mem_cons_of_mem c h)
    rw [List.cons_append]
    unfold splitFirst
    rw [if_neg hc, ih hcs]

theorem count_of_splitFirst {l pre post : Str} (h : splitFirst l = some (pre, post)) :
    l.count tab = post.count tab + 1 := by
  obtain ⟨hdec, hmem⟩ := splitFirst_eq_some h
  subst hdec
  rw [List.count_append, List.count_cons]
  simp [List.count_eq_zero.mpr hmem]

theorem splitN_two_succ (n : Nat) (l : Str) :
    splitN (n + 2) l = match splitFirst l with
      | none => [l]
      | some (pre, post) => pre :: splitN (n + 1) post := rfl

theorem splitN_step {n : Nat} {l pre post : Str} (h : splitFirst l = some (pre, post)) :
    splitN (n + 2) l = pre :: splitN (n + 1) post := by
  rw [splitN_two_succ, h]

theorem length_splitN (n : Nat) (l : Str) :
    (splitN (n + 1) l).length = min (n + 1) (l.count tab + 1) := by
  induction n generalizing l with
  | zero => simp [splitN]
  | succ n ih =>
    show (splitN (n + 2) l).length = _
    cases h : splitFirst l with
    | none =>
      have hz : l.count tab = 0 := List.count_eq_zero.mpr (splitFirst_eq_none h)
      rw [splitN_two_succ, h, hz]
      simp
    | some pr =>
      obtain ⟨pre, post⟩ := pr
      rw [splitN_step h]
      have hc := count_of_splitFirst h
      have := ih post
      simp only [List.length_cons, this, hc]
      omega

theorem splitAll_cons_tab (l : Str) : splitAll (tab :: l) = [] :: splitAll l := by
  simp [splitAll]

theorem splitAll_exists_cons (l : Str) : ∃ g gs, splitAll l = g :: gs := by
  induction l with
  | nil => exact ⟨[], [], rfl⟩
  | cons c cs ih =>
    obtain ⟨g, gs, hg⟩ := ih
    by_cases hc : c = tab
    · subst hc; exact ⟨[], splitAll cs, splitAll_cons_tab cs⟩
    · refine ⟨c :: g, gs, ?_⟩
      show (if c = tab then [] :: splitAll cs else
        match splitAll cs with
        | [] => [[c]]
        | g :: gs => (c :: g) :: gs) = (c :: g) :: gs
      rw [if_neg hc, hg]

theorem splitAll_cons_ne {c : Char} (hc : ¬(c = tab)) {l : Str} {g : Str} {gs : List Str}
    (hg : splitAll l = g :: gs) : splitAll (c :: l) = (c :: g) :: gs := by
  show (if c = tab then [] :: splitAll l else
    match splitAll l with
    | [] => [[c]]
    | g :: gs => (c :: g) :: gs) = (c :: g) :: gs
  rw [if_neg hc, hg]

theorem splitAll_flat {pre : Str} (hpre : tab ∉ pre) (post : Str) :
    splitAll (pre ++ tab :: post) = pre :: splitAll post := by
  induction pre with
  | nil => exact splitAll_cons_tab post
  | cons c cs ih =>
    have hc : ¬(c = tab) := fun h => hpre (h ▸ List.mem_cons_self c cs)
    have hcs : tab ∉ cs := fun h => hpre (List.mem_cons_of_mem c h)
    rw [List.cons_append]
    exact splitAll_cons_ne hc (ih hcs)

theorem length_splitAll (l : Str) : (splitAll l).length = l.count tab + 1 := by
  induction l with
  | nil => rfl
  | cons c cs ih =>
    by_cases hc : c = tab
    · subst hc
      rw [splitAll_cons_tab]
      simp only [List.length_cons, ih, List.count_cons]
      simp
    · obtain ⟨g, gs, hg⟩ := splitAll_exists_cons cs
      rw [splitAll_cons_ne hc hg]
      rw [hg] at ih
      simp only [List.length_cons] at ih ⊢
      rw [List.count_cons]
      simp [ih, hc, Ne.symm]

theorem countFields_eq (l : Str) : countFields l = l.count tab + 1 := length_splitAll l

theorem splitAll_joinTabs : ∀ (fields : List Str) (rem : Str), (∀ f ∈ fields, tab ∉ f) →
    splitAll (joinTabs fields rem) = fields ++ splitAll rem := by
  intro fields
  induction fields with
  | nil => intro rem _; rfl
  | cons f fs ih =>
    intro rem h
    have hf : tab ∉ f := h f (List.mem_cons_self f fs)
    have hfs : ∀ g ∈ fs, tab ∉ g := fun g hg => h g (List.mem_cons_of_mem f hg)
    show splitAll (f ++ tab :: joinTabs fs rem) = _
    rw [splitAll_flat hf, ih rem hfs]
    rfl

theorem countFields_joinTabs (fields : List Str) (rem : Str) (h : ∀ f ∈ fields, tab ∉ f) :
    countFields (joinTabs fields rem) = fields.length + countFields rem := by
  unfold countFields
  rw [splitAll_joinTabs fields rem h, List.length_append]

theorem split_step (l : Str) (hl : 1 ≤ l.count tab) :
    ∃ pre post, splitFirst l = some (pre, post) ∧
      l = pre ++ tab :: post ∧ tab ∉ pre ∧ l.count tab = post.count tab + 1 := by
  cases hs : splitFirst l with
  | none =>
    have hz : l.count tab = 0 := List.count_eq_zero.mpr (splitFirst_eq_none hs)
    exact absurd hl (by omega)
  | some pr =>
    obtain ⟨pre, post⟩ := pr
    obtain ⟨h1, h2⟩ := splitFirst_eq_some hs
    exact ⟨pre, post, rfl, h1, h2, count_of_splitFirst hs⟩

theorem splitN6_of_count {l : Str} (h : 5 ≤ l.count tab) :
    ∃ chrom pos oldId refA altA rem,
      splitN 6 l = [chrom, pos, oldId, refA, altA, rem] ∧
      l = joinTabs [chrom, pos, oldId, refA, altA] rem ∧
      tab ∉ chrom ∧ tab ∉ pos ∧ tab ∉ oldId ∧ tab ∉ refA ∧ tab ∉ altA := by
  obtain ⟨c, l1, hs1, hd1, hm1, hc1⟩ := split_step l (by omega)
  obtain ⟨p, l2, hs2, hd2, hm2, hc2⟩ := split_step l1 (by omega)
  obtain ⟨o, l3, hs3, hd3, hm3, hc3⟩ := split_step l2 (by omega)
  obtain ⟨r, l4, hs4, hd4, hm4, hc4⟩ := split_step l3 (by omega)
  obtain ⟨a, l5, hs5, hd5, hm5, hc5⟩ := split_step l4 (by omega)
  refine ⟨c, p, o, r, a, l5, ?_, ?_, hm1, hm2, hm3, hm4, hm5⟩
  · show splitN (4 + 2) l = _
    rw [splitN_step hs1]
    show c :: splitN (3 + 2) l1 = _
    rw [splitN_step hs2]
    show c :: p :: splitN (2 + 2) l2 = _
    rw [splitN_step hs3]
    show c :: p :: o :: splitN (1 + 2) l3 = _
    rw [splitN_step hs4]
    show c :: p :: o :: r :: splitN (0 + 2) l4 = _
    rw [splitN_step hs5]
    rfl
  · rw [hd1, hd2, hd3, hd4, hd5]
    rfl

theorem dataOutLine_eq_joinTabs (chrom pos refA altA rem : Str) :
    dataOutLine chrom pos refA altA rem =
      joinTabs [chrom, pos, mkId chrom pos refA altA, refA, altA] rem := rfl

theorem tab_not_mem_mkId {chrom pos refA altA : Str} (h1 : tab ∉ chrom) (h2 : tab ∉ pos)
    (h4 : tab ∉ refA) (h5 : tab ∉ altA) : tab ∉ mkId chrom pos refA altA := by
  unfold mkId
  simp only [List.mem_append, List.mem_cons, not_or]
  push_neg
  exact ⟨h1, by decide, h2, by decide, h4, by decide, h5⟩

theorem processDataLine_of_split {l chrom pos oldId refA altA rem : Str}
    (h : splitN 6 l = [chrom, pos, oldId, refA, altA, rem]) :
    processDataLine l = some (dataOutLine chrom pos refA altA rem) := by
  unfold processDataLine
  rw [h]

theorem processDataLine_none_of_count {l : Str} (h : l.count tab < 5) :
    processDataLine l = none := by
  have h6 := length_splitN 5 l
  unfold processDataLine
  rcases hp : splitN 6 l with _ | ⟨c, _ | ⟨p, _ | ⟨o, _ | ⟨r, _ | ⟨a, _ | ⟨rem, rest⟩⟩⟩⟩⟩⟩ <;>
    first
      | rfl
      | (rw [hp] at h6; simp at h6; omega)

theorem isHeader_true_iff (l : Str) : isHeader l = true ↔ l.head? = some '#' := by
  cases l with
  | nil => simp [isHeader]
  | cons c cs => simp [isHeader]

theorem isHeader_false_iff (l : Str) : isHeader l = false ↔ ¬(l.head? = some '#') := by
  rw [← isHeader_true_iff]
  cases isHeader l <;> simp

theorem processLine_of_header {l : Str} (h : l.head? = some '#') : processLine l = some l := by
  simp [processLine, (isHeader_true_iff l).mpr h]

theorem processLine_of_data {l : Str} (h : ¬(l.head? = some '#')) :
    processLine l = processDataLine l := by
  simp [processLine, (isHeader_false_iff l).mpr h]

theorem processLine_data_spec {line : Str} (hnh : ¬(line.head? = some '#'))
    (hcount : 5 ≤ line.count tab) :
    ∃ chrom pos oldId refA altA rem,
      line = joinTabs [chrom, pos, oldId, refA, altA] rem ∧
      tab ∉ chrom ∧ tab ∉ pos ∧ tab ∉ oldId ∧ tab ∉ refA ∧ tab ∉ altA ∧
      processLine line = some (dataOutLine chrom pos refA altA rem) := by
  obtain ⟨c, p, o, r, a, rem, hsplit, hdec, h1, h2, h3, h4, h5⟩ := splitN6_of_count hcount
  refine ⟨c, p, o, r, a, rem, hdec, h1, h2, h3, h4, h5, ?_⟩
  rw [processLine_of_data hnh]
  exact processDataLine_of_split hsplit

theorem count_ge_of_processDataLine_some {l out : Str} (h : processDataLine l = some out) :
    5 ≤ l.count tab := by
  by_contra hc
  rw [processDataLine_none_of_count (by omega)] at h
  exact Option.noConfusion h

theorem splitN_joinTabs : ∀ (fields : List Str) (rem : Str), (∀ f ∈ fields, tab ∉ f) →
    splitN (fields.length + 1) (joinTabs fields rem) = fields ++ [rem] := by
  intro fields
  induction fields with
  | nil => intro rem _; rfl
  | cons f fs ih =>
    intro rem h
    have hf : tab ∉ f := h f (List.mem_cons_self f fs)
    have hfs : ∀ g ∈ fs, tab ∉ g := fun g hg => h g (List.mem_cons_of_mem f hg)
    show splitN (fs.length + 1 + 1) (f ++ tab :: joinTabs fs rem) = _
    rw [show fs.length + 1 + 1 = fs.length + 2 from rfl,
      splitN_step (splitFirst_append hf (joinTabs fs rem)), ih rem hfs]
    rfl

theorem head_joinTabs_cons (f : Str) (fs fs2 : List Str) (rem rem2 : Str) :
    (joinTabs (f :: fs) rem).head? = (joinTabs (f :: fs2) rem2).head? := by
  show (f ++ tab :: joinTabs fs rem).head? = (f ++ tab :: joinTabs fs2 rem2).head?
  cases f <;> rfl

/-! ### Properties of the main loop -/

theorem processAll_cons (l : Str) (ls : List Str) :
    processAll (l :: ls) = match processLine l with
      | none => ([], true)
      | some out => (out :: (processAll ls).1, (processAll ls).2) := rfl

theorem processAll_cons_some {l out : Str} (ls : List Str) (h : processLine l = some out) :
    processAll (l :: ls) = (out :: (processAll ls).1, (processAll ls).2) := by
  rw [processAll_cons, h]

theorem processAll_cons_none {l : Str} (ls : List Str) (h : processLine l = none) :
    processAll (l :: ls) = ([], true) := by
  rw [processAll_cons, h]

theorem processAll_ok_forall2 : ∀ {ls outs : List Str}, processAll ls = (outs, false) →
    List.Forall₂ (fun l o => processLine l = some o) ls outs := by
  intro ls
  induction ls with
  | nil =>
    intro outs h
    unfold processAll at h
    injection h with h1 _
    subst h1
    exact List.Forall₂.nil
  | cons l ls ih =>
    intro outs h
    cases hl : processLine l with
    | none =>
      rw [processAll_cons_none ls hl] at h
      injection h with _ h2
      exact Bool.noConfusion h2
    | some out =>
      rw [processAll_cons_some ls hl] at h
      injection h with h1 h2
      subst h1
      have hok : processAll ls = ((processAll ls).1, false) := by
        rw [← h2]
      exact List.Forall₂.cons hl (ih hok)

theorem processAll_of_forall2 {ls outs : List Str}
    (h : List.Forall₂ (fun l o => processLine l = some o) ls outs) :
    processAll ls = (outs, false) := by
  induction h with
  | nil => rfl
  | cons hl ht ih =>
    rw [processAll_cons_some _ hl, ih]

theorem processAll_append_ok {pre outs : List Str} (h : processAll pre = (outs, false))
    (ls : List Str) :
    processAll (pre ++ ls) = (outs ++ (processAll ls).1, (processAll ls).2) := by
  induction pre generalizing outs with
  | nil =>
    unfold processAll at h
    injection h with h1 _
    subst h1
    simp only [List.nil_append]
  | cons l pre ih =>
    cases hl : processLine l with
    | none =>
      rw [processAll_cons_none pre hl] at h
      injection h with _ h2
      exact Bool.noConfusion h2
    | some out =>
      rw [processAll_cons_some pre hl] at h
      injection h with h1 h2
      subst h1
      have hok : processAll pre = ((processAll pre).1, false) := by
        rw [← h2]
      rw [List.cons_append, processAll_cons_some (pre ++ ls) hl, ih hok]
      rfl

/-! ### Idempotence of the per-line transform -/

theorem processLine_idem {l out : Str} (h : processLine l = some out) :
    processLine out = some out := by
  by_cases hh : l.head? = some '#'
  · rw [processLine_of_header hh] at h
    injection h with h1
    subst h1
    exact processLine_of_header hh
  · rw [processLine_of_data hh] at h
    have hcount := count_ge_of_processDataLine_some h
    obtain ⟨c, p, o, r, a, rem, hdec, h1, h2, h3, h4, h5, hpl⟩ := processLine_data_spec hh hcount
    rw [processLine_of_data hh, h] at hpl
    injection hpl with hout
    subst hout
    have hid : tab ∉ mkId c p r a := tab_not_mem_mkId h1 h2 h4 h5
    have hh2 : (dataOutLine c p r a rem).head? = l.head? := by
      rw [dataOutLine_eq_joinTabs, hdec]
      exact head_joinTabs_cons c [p, mkId c p r a, r, a] [p, o, r, a] rem rem
    have hnh2 : ¬((dataOutLine c p r a rem).head? = some '#') := by
      rw [hh2]; exact hh
    have hmem : ∀ f ∈ [c, p, mkId c p r a, r, a], tab ∉ f := by
      intro f hf
      simp only [List.mem_cons, List.not_mem_nil, or_false] at hf
      rcases hf with rfl | rfl | rfl | rfl | rfl
      · exact h1
      · exact h2
      · exact hid
      · exact h4
      · exact h5
    have hsplit : splitN 6 (dataOutLine c p r a rem) = [c, p, mkId c p r a, r, a, rem] := by
      rw [dataOutLine_eq_joinTabs]
      exact splitN_joinTabs [c, p, mkId c p r a, r, a] rem hmem
    rw [processLine_of_data hnh2]
    exact processDataLine_of_split hsplit

theorem forall2_idem {ls outs : List Str}
    (h : List.Forall₂ (fun l o => processLine l = some o) ls outs) :
    List.Forall₂ (fun l o => processLine l = some o) outs outs := by
  induction h with
  | nil => exact List.Forall₂.nil
  | cons hl _ ih => exact List.Forall₂.cons (processLine_idem hl) ih

/-! ### Properties of the argument scan -/

theorem firstIdxFrom_cons (b : Str) (bs : List Str) (a : Str) :
    firstIdxFrom (b :: bs) a =
      if b = a then some 0 else (firstIdxFrom bs a).map (· + 1) := rfl

theorem valAfter_eq (args : List Str) (a : Str) :
    valAfter args a = match firstIdxFrom args a with
      | some i => args[i + 1]?
      | none => none := rfl

theorem firstIdxFrom_get : ∀ {l : List Str} {a : Str} {j : Nat},
    firstIdxFrom l a = some j → l[j]? = some a := by
  intro l
  induction l with
  | nil => intro a j h; exact absurd h (by simp [firstIdxFrom])
  | cons b bs ih =>
    intro a j h
    rw [firstIdxFrom_cons] at h
    split at h
    · rename_i hb
      injection h with h1
      subst h1
      simpa using hb
    · cases hk : firstIdxFrom bs a with
      | none => rw [hk] at h; exact absurd h (by simp)
      | some k =>
        rw [hk] at h
        simp only [Option.map_some'] at h
        injection h with h1
        subst h1
        simpa using ih hk

theorem firstIdxFrom_append_left {l1 : List Str} {a : Str} (h : a ∈ l1) (l2 : List Str) :
    firstIdxFrom (l1 ++ l2) a = firstIdxFrom l1 a := by
  induction l1 with
  | nil => exact absurd h (List.not_mem_nil a)
  | cons b bs ih =>
    rw [List.cons_append, firstIdxFrom_cons, firstIdxFrom_cons]
    by_cases hb : b = a
    · rw [if_pos hb, if_pos hb]
    · rw [if_neg hb, if_neg hb]
      have hmem : a ∈ bs := by
        rcases List.mem_cons.mp h with h1 | h1
        · exact absurd h1.symm hb
        · exact h1
      rw [ih hmem]

theorem firstIdxFrom_append_right {l1 : List Str} {a : Str} (h : a ∉ l1) (l2 : List Str) :
    firstIdxFrom (l1 ++ l2) a = (firstIdxFrom l2 a).map (· + l1.length) := by
  induction l1 with
  | nil =>
    rw [List.nil_append]
    cases firstIdxFrom l2 a <;> simp
  | cons b bs ih =>
    have hb : ¬(b = a) := fun hba => h (hba ▸ List.mem_cons_self b bs)
    have hbs : a ∉ bs := fun hm => h (List.mem_cons_of_mem b hm)
    rw [List.cons_append, firstIdxFrom_cons, if_neg hb, ih hbs]
    cases firstIdxFrom l2 a with
    | none => rfl
    | some k =>
      simp only [Option.map_some', List.length_cons, Option.some.injEq]
      omega

theorem valAfter_insert {l1 l2 : List Str} {x a : Str} (hax : ¬(a = x))
    (hlast : ∀ e, l1.getLast? = some e → ¬(e = a)) :
    valAfter (l1 ++ x :: l2) a = valAfter (l1 ++ l2) a := by
  by_cases hmem : a ∈ l1
  · rw [valAfter_eq, valAfter_eq, firstIdxFrom_append_left hmem,
      firstIdxFrom_append_left hmem]
    cases hj : firstIdxFrom l1 a with
    | none => rfl
    | some j =>
      have hget := firstIdxFrom_get hj
      have hjlt : j < l1.length := by
        by_contra hc
        rw [List.getElem?_eq_none (by omega)] at hget
        exact Option.noConfusion hget
      have hne : ¬(j + 1 = l1.length) := by
        intro hc
        have hlast2 : l1.getLast? = some a := by
          rw [List.getLast?_eq_getElem? l1, show l1.length - 1 = j by omega]
          exact hget
        exact hlast a hlast2 rfl
      have hlt : j + 1 < l1.length := by omega
      show (l1 ++ x :: l2)[j + 1]? = (l1 ++ l2)[j + 1]?
      rw [List.getElem?_append_left hlt, List.getElem?_append_left hlt]
  · rw [valAfter_eq, valAfter_eq, firstIdxFrom_append_right hmem,
      firstIdxFrom_append_right hmem, firstIdxFrom_cons, if_neg (fun h => hax h.symm)]
    cases hk : firstIdxFrom l2 a with
    | none => rfl
    | some k =>
      simp only [Option.map_some']
      rw [List.getElem?_append_right (by omega), List.getElem?_append_right (by omega),
        show k + 1 + l1.length + 1 - l1.length = k + 2 by omega,
        show k + l1.length + 1 - l1.length = k + 1 by omega]
      simp

theorem isFlag_of_input {a : Str} (h : a = iShort ∨ a = iLong) : isFlag a := by
  rcases h with h | h
  · exact Or.inl h
  · exact Or.inr (Or.inl h)

theorem isFlag_of_output {a : Str} (h : a = oShort ∨ a = oLong) : isFlag a := by
  rcases h with h | h
  · exact Or.inr (Or.inr (Or.inl h))
  · exact Or.inr (Or.inr (Or.inr h))

theorem flagStep_congr {args args2 : List Str}
    (h : ∀ a, isFlag a → valAfter args a = valAfter args2 a)
    (st : Option Str × Option Str) (arg : Str) :
    flagStep args st arg = flagStep args2 st arg := by
  unfold flagStep
  split_ifs with h1 h2
  · rw [h arg (isFlag_of_input h1)]
  · rw [h arg (isFlag_of_output h2)]
  · rfl

theorem flagStep_junk {args : List Str} {x : Str} (hx : ¬ isFlag x)
    (st : Option Str × Option Str) : flagStep args st x = st := by
  unfold flagStep
  rw [if_neg (fun h => hx (isFlag_of_input h)),
    if_neg (fun h => hx (isFlag_of_output h))]

theorem flagStep_fst {args : List Str}
    (h : ∀ j : Nat, (args[j]? = some iShort ∨ args[j]? = some iLong) → args[j + 1]? = none)
    (st : Option Str × Option Str) (arg : Str) : (flagStep args st arg).1 = st.1 := by
  unfold flagStep
  split_ifs with h1 h2
  · have hva : valAfter args arg = none := by
      rw [valAfter_eq]
      cases hidx : firstIdxFrom args arg with
      | none => rfl
      | some j =>
        have hget := firstIdxFrom_get hidx
        apply h j
        rcases h1 with h1 | h1
        · exact Or.inl (by rw [hget, h1])
        · exact Or.inr (by rw [hget, h1])
    rw [hva]
  · cases valAfter args arg <;> rfl
  · rfl

theorem foldl_flagStep_fst {args : List Str}
    (h : ∀ j : Nat, (args[j]? = some iShort ∨ args[j]? = some iLong) → args[j + 1]? = none) :
    ∀ (l : List Str) (st : Option Str × Option Str), (l.foldl (flagStep args) st).1 = st.1 := by
  intro l
  induction l with
  | nil => intro st; rfl
  | cons a l ih =>
    intro st
    rw [List.foldl_cons, ih, flagStep_fst h]

theorem parseArgs_insert_junk {l1 : List Str} (l2 : List Str) {x : Str}
    (h1 : l1 ≠ []) (hx : ¬ isFlag x)
    (hlast : ∀ e, l1.getLast? = some e → ¬ isFlag e) :
    parseArgs (l1 ++ x :: l2) = parseArgs (l1 ++ l2) := by
  obtain ⟨h0, t, rfl⟩ : ∃ h0 t, l1 = h0 :: t := by
    cases l1 with
    | nil => exact absurd rfl h1
    | cons h0 t => exact ⟨h0, t, rfl⟩
  have hva : ∀ a, isFlag a →
      valAfter ((h0 :: t) ++ x :: l2) a = valAfter ((h0 :: t) ++ l2) a := by
    intro a ha
    refine valAfter_insert (fun hax => hx (hax ▸ ha)) ?_
    intro e he hea
    exact hlast e he (hea ▸ ha)
  have hstep : flagStep ((h0 :: t) ++ x :: l2) = flagStep ((h0 :: t) ++ l2) := by
    funext st arg
    exact flagStep_congr hva st arg
  unfold parseArgs
  rw [hstep,
    show ((h0 :: t) ++ x :: l2).drop 1 = t ++ x :: l2 from rfl,
    show ((h0 :: t) ++ l2).drop 1 = t ++ l2 from rfl,
    List.foldl_append, List.foldl_append, List.foldl_cons, flagStep_junk hx]

theorem run_eq (args : List Str) (inputOf : Str → List Str) :
    run args inputOf = match parseArgs args with
      | (none, _) => .argPanic expectMsg
      | (some _, none) => .argPanic expectMsg
      | (some vin, some _) =>
        .ran (processAll (inputOf vin)).1 (processAll (inputOf vin)).2 := rfl

theorem mem_five {c p o r a f : Str} (hf : f ∈ [c, p, o, r, a]) :
    f = c ∨ f = p ∨ f = o ∨ f = r ∨ f = a := by
  simpa using hf

/-! ### The claims -/

/-- Claim C1: for every data line (a line not beginning with '#') with at
least six tab-delimited fields, the third tab-delimited field of the output
line equals the input's first, second, fourth and fifth fields joined by
':' (chrom:pos:ref:alt). -/
theorem c1_identifier_correct (line : Str)
    (hnh : ¬(line.head? = some '#')) (hf : 6 ≤ countFields line) :
    ∃ out, processLine line = some out ∧
      (splitAll out).getD 2 [] =
        mkId ((splitAll line).getD 0 []) ((splitAll line).getD 1 [])
          ((splitAll line).getD 3 []) ((splitAll line).getD 4 []) := by
  have hcount : 5 ≤ line.count tab := by
    rw [countFields_eq] at hf; omega
  obtain ⟨c, p, o, r, a, rem, hdec, h1, h2, h3, h4, h5, hpl⟩ :=
    processLine_data_spec hnh hcount
  refine ⟨dataOutLine c p r a rem, hpl, ?_⟩
  have hid : tab ∉ mkId c p r a := tab_not_mem_mkId h1 h2 h4 h5
  have hmem1 : ∀ f ∈ [c, p, o, r, a], tab ∉ f := by
    intro f hf2
    rcases mem_five hf2 with rfl | rfl | rfl | rfl | rfl <;> assumption
  have hmem2 : ∀ f ∈ [c, p, mkId c p r a, r, a], tab ∉ f := by
    intro f hf2
    rcases mem_five hf2 with rfl | rfl | rfl | rfl | rfl <;> assumption
  rw [hdec, splitAll_joinTabs _ _ hmem1, dataOutLine_eq_joinTabs,
    splitAll_joinTabs _ _ hmem2]
  rfl

theorem c1_witness :
    ∃ out, processLine ['1', '\t', '2', '\t', '.', '\t', 'A', '\t', 'G', '\t', 'x'] =
        some out ∧
      (splitAll out).getD 2 [] =
        mkId ((splitAll ['1', '\t', '2', '\t', '.', '\t', 'A', '\t', 'G', '\t', 'x']).getD 0 [])
          ((splitAll ['1', '\t', '2', '\t', '.', '\t', 'A', '\t', 'G', '\t', 'x']).getD 1 [])
          ((splitAll ['1', '\t', '2', '\t', '.', '\t', 'A', '\t', 'G', '\t', 'x']).getD 3 [])
          ((splitAll ['1', '\t', '2', '\t', '.', '\t', 'A', '\t', 'G', '\t', 'x']).getD 4 []) :=
  c1_identifier_correct ['1', '\t', '2', '\t', '.', '\t', 'A', '\t', 'G', '\t', 'x']
    (by decide) (by decide)

/-- Claim C2: every input line whose first character is '#' is emitted
verbatim, with no other transformation applied. -/
theorem c2_header_passthrough (line : Str) (h : line.head? = some '#') :
    processLine line = some line :=
  processLine_of_header h

theorem c2_witness :
    processLine ['#', 'C', 'H', 'R', 'O', 'M'] = some ['#', 'C', 'H', 'R', 'O', 'M'] :=
  c2_header_passthrough ['#', 'C', 'H', 'R', 'O', 'M'] (by decide)

/-- Claim C3: a data line with at least six tab-delimited fields is split
on only its first five tabs; the sixth part (the remainder) keeps embedded
tabs unsplit and is emitted verbatim after the fifth output field, so the
output line has exactly as many tab-delimited fields as the input line. -/
theorem c3_remainder_verbatim (line : Str)
    (hnh : ¬(line.head? = some '#')) (hf : 6 ≤ countFields line) :
    ∃ chrom pos oldId refA altA rem,
      line = joinTabs [chrom, pos, oldId, refA, altA] rem ∧
      processLine line =
        some (joinTabs [chrom, pos, mkId chrom pos refA altA, refA, altA] rem) ∧
      countFields (joinTabs [chrom, pos, mkId chrom pos refA altA, refA, altA] rem) =
        countFields line := by
  have hcount : 5 ≤ line.count tab := by
    rw [countFields_eq] at hf; omega
  obtain ⟨c, p, o, r, a, rem, hdec, h1, h2, h3, h4, h5, hpl⟩ :=
    processLine_data_spec hnh hcount
  have hid : tab ∉ mkId c p r a := tab_not_mem_mkId h1 h2 h4 h5
  have hmem1 : ∀ f ∈ [c, p, o, r, a], tab ∉ f := by
    intro f hf2
    rcases mem_five hf2 with rfl | rfl | rfl | rfl | rfl <;> assumption
  have hmem2 : ∀ f ∈ [c, p, mkId c p r a, r, a], tab ∉ f := by
    intro f hf2
    rcases mem_five hf2 with rfl | rfl | rfl | rfl | rfl <;> assumption
  refine ⟨c, p, o, r, a, rem, hdec, ?_, ?_⟩
  · rw [hpl, dataOutLine_eq_joinTabs]
  · rw [countFields_joinTabs _ _ hmem2, hdec, countFields_joinTabs _ _ hmem1]
    rfl

theorem c3_witness :
    ∃ chrom pos oldId refA altA rem,
      ['2', '\t', '5', '\t', 'r', '\t', 'C', '\t', 'T', '\t', 'q', '\t', 'z'] =
        joinTabs [chrom, pos, oldId, refA, altA] rem ∧
      processLine ['2', '\t', '5', '\t', 'r', '\t', 'C', '\t', 'T', '\t', 'q', '\t', 'z'] =
        some (joinTabs [chrom, pos, mkId chrom pos refA altA, refA, altA] rem) ∧
      countFields (joinTabs [chrom, pos, mkId chrom pos refA altA, refA, altA] rem) =
        countFields ['2', '\t', '5', '\t', 'r', '\t', 'C', '\t', 'T', '\t', 'q', '\t', 'z'] :=
  c3_remainder_verbatim ['2', '\t', '5', '\t', 'r', '\t', 'C', '\t', 'T', '\t', 'q', '\t', 'z']
    (by decide) (by decide)

/-- Claim C4: a data line with fewer than five tab-delimited fields makes
processing fail with the unwrap-style fatal stop: the lines before it are
the only output produced, no output line is produced for it, and no later
line is processed. -/
theorem c4_short_line_fatal (pre : List Str) (bad : Str) (post outs : List Str)
    (hpre : processAll pre = (outs, false))
    (hnh : ¬(bad.head? = some '#')) (hshort : countFields bad < 5) :
    processAll (pre ++ bad :: post) = (outs, true) := by
  have hbad : processLine bad = none := by
    rw [processLine_of_data hnh]
    apply processDataLine_none_of_count
    rw [countFields_eq] at hshort
    omega
  rw [processAll_append_ok hpre (bad :: post), processAll_cons_none post hbad]
  simp

theorem c4_witness :
    processAll ([['#', 'h']] ++ ['1', '\t', '2'] :: [['#', 'z']]) = ([['#', 'h']], true) :=
  c4_short_line_fatal [['#', 'h']] ['1', '\t', '2'] [['#', 'z']] [['#', 'h']]
    (by decide) (by decide) (by decide)

/-- Claim C5: the per-file transform is idempotent: if the tool succeeds on
an input, running it again on its own output reproduces that output
exactly. -/
theorem c5_idempotent (input outs : List Str) (h : processAll input = (outs, false)) :
    processAll outs = (outs, false) :=
  processAll_of_forall2 (forall2_idem (processAll_ok_forall2 h))

theorem c5_witness :
    processAll [['#', 'h'],
      ['1', '\t', '2', '\t', '1', ':', '2', ':', 'A', ':', 'G', '\t', 'A', '\t', 'G', '\t', 'x']] =
      ([['#', 'h'],
        ['1', '\t', '2', '\t', '1', ':', '2', ':', 'A', ':', 'G', '\t', 'A', '\t', 'G', '\t', 'x']],
        false) :=
  c5_idempotent [['#', 'h'], ['1', '\t', '2', '\t', '.', '\t', 'A', '\t', 'G', '\t', 'x']]
    [['#', 'h'],
      ['1', '\t', '2', '\t', '1', ':', '2', ':', 'A', ':', 'G', '\t', 'A', '\t', 'G', '\t', 'x']]
    (by decide)

/-- Claim C6: whenever the tool succeeds, it emits exactly one output line
per input line, in the input's order: the i-th output line is the
transform of the i-th input line. -/
theorem c6_order_preserved (input outs : List Str) (h : processAll input = (outs, false)) :
    outs.length = input.length ∧
      List.Forall₂ (fun l o => processLine l = some o) input outs := by
  have h2 := processAll_ok_forall2 h
  exact ⟨h2.length_eq.symm, h2⟩

theorem c6_witness :
    ([['#', 'h'],
      ['1', '\t', '2', '\t', '1', ':', '2', ':', 'A', ':', 'G', '\t', 'A', '\t', 'G', '\t', 'x']] :
        List Str).length =
      ([['#', 'h'], ['1', '\t', '2', '\t', '.', '\t', 'A', '\t', 'G', '\t', 'x']] :
        List Str).length ∧
      List.Forall₂ (fun l o => processLine l = some o)
        [['#', 'h'], ['1', '\t', '2', '\t', '.', '\t', 'A', '\t', 'G', '\t', 'x']]
        [['#', 'h'],
          ['1', '\t', '2', '\t', '1', ':', '2', ':', 'A', ':', 'G', '\t', 'A', '\t', 'G', '\t', 'x']] :=
  c6_order_preserved [['#', 'h'], ['1', '\t', '2', '\t', '.', '\t', 'A', '\t', 'G', '\t', 'x']]
    [['#', 'h'],
      ['1', '\t', '2', '\t', '1', ':', '2', ':', 'A', ':', 'G', '\t', 'A', '\t', 'G', '\t', 'x']]
    (by decide)

/-- Claim C7: when no occurrence of "-i"/"--input" in the argument vector
is followed by a value, the run ends in the `expect` panic (diagnostic
message, non-zero exit) raised before the output file is created, so no
output file is created. -/
theorem c7_missing_input_fatal (args : List Str) (inputOf : Str → List Str)
    (h : ∀ j : Nat, (args[j]? = some iShort ∨ args[j]? = some iLong) → args[j + 1]? = none) :
    run args inputOf = Outcome.argPanic expectMsg := by
  have hfst : (parseArgs args).1 = none := foldl_flagStep_fst h _ _
  rw [run_eq]
  rcases hpa : parseArgs args with ⟨fst, snd⟩
  rw [hpa] at hfst
  simp only at hfst
  subst hfst
  rfl

theorem c7_witness :
    run [['p']] (fun _ => []) = Outcome.argPanic expectMsg :=
  c7_missing_input_fatal [['p']] (fun _ => []) (by intro j _; cases j <;> rfl)

/-- Claim C8: unrecognized arguments are silently ignored: inserting an
argument that is not one of the four flag spellings, at a position not
immediately after an existing argument that is a flag, changes neither the
parsed input/output paths nor the outcome of the run. -/
theorem c8_unrecognized_ignored (l1 l2 : List Str) (x : Str) (inputOf : Str → List Str)
    (h1 : l1 ≠ []) (hx : ¬ isFlag x)
    (hlast : ∀ e, l1.getLast? = some e → ¬ isFlag e) :
    parseArgs (l1 ++ x :: l2) = parseArgs (l1 ++ l2) ∧
      run (l1 ++ x :: l2) inputOf = run (l1 ++ l2) inputOf := by
  have hp := parseArgs_insert_junk l2 h1 hx hlast
  refine ⟨hp, ?_⟩
  rw [run_eq, run_eq, hp]

theorem c8_witness :
    parseArgs ([['p'], ['-', 'i'], ['f']] ++ ['z'] :: [['-', 'o'], ['g']]) =
        parseArgs ([['p'], ['-', 'i'], ['f']] ++ [['-', 'o'], ['g']]) ∧
      run ([['p'], ['-', 'i'], ['f']] ++ ['z'] :: [['-', 'o'], ['g']]) (fun _ => []) =
        run ([['p'], ['-', 'i'], ['f']] ++ [['-', 'o'], ['g']]) (fun _ => []) :=
  c8_unrecognized_ignored [['p'], ['-', 'i'], ['f']] [['-', 'o'], ['g']] ['z'] (fun _ => [])
    (by decide) (by decide)
    (by
      intro e he
      have he2 : e = ['f'] := by simpa using he.symm
      subst he2
      decide)

/-- Claim C9: a non-header line with exactly five tab-delimited fields also
panics: processing a data line fails precisely when the line has fewer
than six tab-delimited fields, i.e. the program requires at least six
fields, strictly more than the spec's "fewer than five" wording. -/
theorem c9_needs_six_fields (line : Str) (hnh : ¬(line.head? = some '#')) :
    processLine line = none ↔ countFields line < 6 := by
  rw [processLine_of_data hnh, countFields_eq]
  constructor
  · intro h
    by_contra hc
    obtain ⟨c, p, o, r, a, rem, hsplit, _, _, _, _, _, _⟩ :=
      splitN6_of_count (show 5 ≤ line.count tab by omega)
    rw [processDataLine_of_split hsplit] at h
    exact Option.noConfusion h
  · intro h
    exact processDataLine_none_of_count (by omega)

theorem c9_witness :
    (processLine ['1', '\t', '2', '\t', '3', '\t', '4', '\t', '5'] = none ↔
      countFields ['1', '\t', '2', '\t', '3', '\t', '4', '\t', '5'] < 6) ∧
      processLine ['1', '\t', '2', '\t', '3', '\t', '4', '\t', '5'] = none :=
  ⟨c9_needs_six_fields ['1', '\t', '2', '\t', '3', '\t', '4', '\t', '5'] (by decide),
    (c9_needs_six_fields ['1', '\t', '2', '\t', '3', '\t', '4', '\t', '5'] (by decide)).mpr
      (by decide)⟩

/-- Claim C10: when an input path was parsed but no output path was, the
run ends in the `expect` panic whose message is
"Specify input VCF with --input" — the same message as for a missing
input flag, not one naming the output flag. -/
theorem c10_missing_output_message (args : List Str) (inputOf : Str → List Str) (vin : Str)
    (h : parseArgs args = (some vin, none)) :
    run args inputOf = Outcome.argPanic expectMsg := by
  rw [run_eq, h]

theorem c10_witness :
    run [['p'], ['-', 'i'], ['f']] (fun _ => []) = Outcome.argPanic expectMsg :=
  c10_missing_output_message [['p'], ['-', 'i'], ['f']] (fun _ => []) ['f'] (by decide)

end VCF
